import Mathlib

/-!
Verification development for the JZip compressor (C++ sources: main.cpp,
HuffmanTree.cpp, CharHeap.cpp, Interpreter.cpp, plus an earlier revision of
main providing writeDict/readDict).  Every definition below is a shallow
embedding translated from the C++ source.  Bytes are modelled as `Nat`
(values 0-255), bit sequences as `List Bool`, byte streams as `List Nat`,
and C++ `std::map` objects as association lists kept in the map's iteration
order (sorted by the key's comparator).  Fallible code returns `Except Err`.
C++ undefined behaviour (out-of-bounds reads, uses of indeterminate values
after a failed stream extraction) is marked with dedicated error values or
noted in comments at the definition it concerns.
-/

/-- Error kinds surfaced by the embedded operations.  `indeterminateRead`
marks the places where the C++ uses a variable after a failed stream
extraction (undefined behaviour); `outOfFuel` marks exhaustion of the
structural-recursion fuel, which the drivers supply in excess so it is
never reached. -/
inductive Err where
  | indexOutOfRange
  | invalidCharacter
  | unexpectedEndOfStream
  | duplicateSymbol
  | pathTooLong
  | mapAtMissing
  | indeterminateRead
  | emptyInput
  | outOfFuel
  deriving DecidableEq, Repr

-- Decidable equality of `Except` results, used to state concrete
-- evaluations of the embedded operations.
deriving instance DecidableEq for Except

/-- Signed reading of a byte, as C++ `char` on the reference platform
(signed, two's complement): bytes 128-255 read as negative values.  Used
wherever the C++ compares or orders `char` values. -/
def toSigned (b : Nat) : Int :=
  if b < 128 then (b : Int) else (b : Int) - 256

/-- Comparator of `std::map<char, _>`: `operator<` on signed char. -/
def charLt (a b : Nat) : Bool :=
  toSigned a < toSigned b

/-- Comparator of `std::map<std::vector<bool>, _>`: lexicographic
`operator<` on `vector<bool>` with `false < true`. -/
def pathLt : List Bool → List Bool → Bool
  | [], [] => false
  | [], _ :: _ => true
  | _ :: _, [] => false
  | a :: as, b :: bs =>
    if a = b then pathLt as bs
    else (!a) && b

/-- Whitespace bytes skipped by formatted `operator>>` extraction under the
default classic locale: tab, newline, vertical tab, form feed, carriage
return, space. -/
def isWsByte (b : Nat) : Bool :=
  b = 9 || b = 10 || b = 11 || b = 12 || b = 13 || b = 32

/-- Formatted single-character extraction `in >> c`: skip whitespace, then
take one byte.  `none` when the stream has only whitespace left (the C++
extraction then fails and leaves the target indeterminate). -/
def streamRead (l : List Nat) : Option (Nat × List Nat) :=
  match l.dropWhile (fun b => isWsByte b) with
  | [] => none
  | b :: rest => some (b, rest)

/-- Insertion `m[k] = v` into a `std::map<char, _>` modelled as an
association list sorted by `charLt`: insert at the sorted position,
overwriting an existing entry with the same key. -/
def mapInsert {α : Type} (k : Nat) (v : α) : List (Nat × α) → List (Nat × α)
  | [] => [(k, v)]
  | (q, w) :: rest =>
    if charLt k q then (k, v) :: (q, w) :: rest
    else if k = q then (k, v) :: rest
    else (q, w) :: mapInsert k v rest

/-- Lookup in a char-keyed association map (`map.find(k)` / `map.at(k)`). -/
def mapFind? {α : Type} : List (Nat × α) → Nat → Option α
  | [], _ => none
  | (q, w) :: rest, k => if k = q then some w else mapFind? rest k

/-- Insertion `m[p] = v` into a `std::map<std::vector<bool>, _>` modelled as
an association list sorted by `pathLt`. -/
def pathInsert {α : Type} (p : List Bool) (v : α) : List (List Bool × α) → List (List Bool × α)
  | [] => [(p, v)]
  | (q, w) :: rest =>
    if pathLt p q then (p, v) :: (q, w) :: rest
    else if p = q then (p, v) :: rest
    else (q, w) :: pathInsert p v rest

/-- Lookup in a path-keyed association map. -/
def pathFind? {α : Type} : List (List Bool × α) → List Bool → Option α
  | [], _ => none
  | (q, w) :: rest, p => if p = q then some w else pathFind? rest p

/-- The eight bits of a byte, most significant first: the ubiquitous C++
loop `for (i = 7; i >= 0; i--) push((t >> i) & 1)` (equally
`(t >> (7 - i)) & 1` for `i = 0..7`). -/
def byteBitsMSB (t : Nat) : List Bool :=
  [decide (t / 128 % 2 = 1), decide (t / 64 % 2 = 1), decide (t / 32 % 2 = 1),
   decide (t / 16 % 2 = 1), decide (t / 8 % 2 = 1), decide (t / 4 % 2 = 1),
   decide (t / 2 % 2 = 1), decide (t % 2 = 1)]

/-- Loop body of `writeOut` (main.cpp): accumulate bits MSB-first into a
byte (`byte = (byte << 1) | bit`, an `unsigned char`, hence mod 256), flush
every 8 bits; a final partial byte is left-shifted so its payload sits in
the high bits (`byte << (8 - bitCount)`). -/
def writeOutGo : List Bool → Nat → Nat → List Nat
  | [], _, 0 => []
  | [], byte, bitCount + 1 => [byte * 2 ^ (8 - (bitCount + 1)) % 256]
  | b :: bs, byte, bitCount =>
    let byte' := (byte * 2 + (if b then 1 else 0)) % 256
    if bitCount + 1 = 8 then byte' :: writeOutGo bs 0 0
    else writeOutGo bs byte' (bitCount + 1)

/-- `writeOut(toWrite, out)` of main.cpp: pack a bit vector into bytes,
MSB-first, padding the final partial byte with zero bits at the low end. -/
def writeOut (l : List Bool) : List Nat :=
  writeOutGo l 0 0

/-- The bits of a byte sequence, each byte MSB-first (how the container's
payload is read back as a bitstream). -/
def bytesToBits (l : List Nat) : List Bool :=
  (l.map byteBitsMSB).flatten

/-- Pop `n` elements off the back of a vector (`n` times `pop_back()`). -/
def popBack {α : Type} (n : Nat) (l : List α) : List α :=
  l.take (l.length - n)

/-- The header-writing loop `for (i = 0; i < 8; i++) data[i] = (t >> (7-i)) & 1`
of `compress` (main.cpp): overwrite the first 8 bits with the byte `t`.
Every reachable call site has `l.length ≥ 8` (the buffer was padded to at
least one full byte first); for shorter vectors the C++ writes out of
bounds (undefined behaviour), which this model does not exercise. -/
def setFirst8 (t : Nat) (l : List Bool) : List Bool :=
  byteBitsMSB t ++ l.drop 8

/-- Overflow branch of `compress` (main.cpp lines 117-131), applied after
the straddling symbol's bits have been popped: pad the buffer with filler
bits up to 80000, record the filler count in the first byte (the counter is
an `unsigned char`, hence mod 256), and pack the chunk into bytes.  The
C++ padding loop `while (size != 80000)` does not terminate for a buffer
longer than 80000 bits; that state is unreachable (the buffer before the
straddling symbol was pushed was at most 80000 bits). -/
def overflowFlush (l : List Bool) : List Nat :=
  writeOut (setFirst8 ((80000 - l.length) % 256) (l ++ List.replicate (80000 - l.length) false))

/-- End-of-input branch of `compress` (main.cpp lines 93-108): if the
buffer is not byte-aligned, pad it with filler bits to the next byte
boundary and record the filler count (< 8) in the first byte. -/
def padFinal (l : List Bool) : List Bool :=
  if l.length % 8 = 0 then l
  else setFirst8 (8 - l.length % 8) (l ++ List.replicate (8 - l.length % 8) false)

/-- Main loop of `compress` (main.cpp lines 91-132) over the remaining
input bytes.  `charMap.at(c)` throwing for a byte absent from the map is
`Err.mapAtMissing`.  The result is the list of byte chunks, one per
`writeOut` call (the final call may contribute an empty chunk, in which
case the C++ writes no bytes for it).  The C++ loop detects end of input
only after one further `stringStream >> c` extraction has failed, and then
evaluates `charMap.at(c)` on the indeterminate `c` (undefined behaviour);
the model takes the end-of-input branch as soon as the input is exhausted. -/
def compressGo (cm : List (Nat × List Bool)) : List Nat → List Bool → List (List Nat) → Except Err (List (List Nat))
  | [], data, chunks => Except.ok (chunks ++ [writeOut (padFinal data)])
  | b :: rest, data, chunks =>
    if isWsByte b then compressGo cm rest data chunks
    else
      match mapFind? cm b with
      | none => Except.error Err.mapAtMissing
      | some path =>
        let d1 := data ++ path
        if d1.length > 80000 then
          compressGo cm rest [] (chunks ++ [overflowFlush (popBack path.length d1)])
        else compressGo cm rest d1 chunks

/-- `compress(in, charMap, out)` of main.cpp: reserve 8 bits for the
trailing-bit header, then run the main loop.  Note that `stringStream >> c`
skips whitespace bytes, so whitespace in the input is never encoded. -/
def compress (cm : List (Nat × List Bool)) (input : List Nat) : Except Err (List (List Nat)) :=
  compressGo cm input (List.replicate 8 false) []

/-- Padding of a dictionary entry's path to the next byte boundary
(vectorDict's loop `for (i = 0; i < 8 - size % 8 && size % 8 != 0; i++)`). -/
def padToByte (n : Nat) : Nat :=
  if n % 8 = 0 then 0 else 8 - n % 8

/-- `vectorDict(charMap)` of main.cpp: for each entry (in map order) emit
the 8-bit path length, the path bits padded with zero bits to a byte
boundary, and the 8-bit character; terminate with an 8-bit zero sentinel.
Throws `PathTooLong` for a path over 255 bits.  For characters 128-255 the
C++ shifts a negative `char`; arithmetic shift makes the emitted bits the
byte's two's-complement bits, i.e. `byteBitsMSB` of the byte value. -/
def vectorDict : List (Nat × List Bool) → Except Err (List Bool)
  | [] => Except.ok (byteBitsMSB 0)
  | (k, path) :: rest =>
    if path.length > 255 then Except.error Err.pathTooLong
    else
      (vectorDict rest).map fun tail =>
        byteBitsMSB path.length ++ path ++ List.replicate (padToByte path.length) false ++
          byteBitsMSB k ++ tail

/-- `writeOutDict(binDict, outFile)` of main.cpp: pack the dictionary bits
into bytes (its trailing-bit loop pads with zero bits exactly as `writeOut`
does) and append one extra null byte ("switch from dict to data").  The
dictionary bit vector built by `vectorDict` is always byte-aligned, so the
padding loop never runs. -/
def writeOutDict (binDict : List Bool) : List Nat :=
  writeOut binDict ++ [0]

/-- Inner path-reading loop of `interpretDict` (main.cpp lines 215-222):
for `i = 0..n-1`, read a fresh byte when `i % 8 == 0`, otherwise push bit
`(bits >> (7 - i % 8)) & 1`.  Note the `else`: on byte-read iterations no
bit is pushed.  The first argument is the remaining iteration count, the
second the absolute `i`.  A failed byte read leaves `bits` stale and makes
the entry's subsequent character read fail, after which the C++ uses the
indeterminate character (undefined behaviour): `Err.indeterminateRead`. -/
def interpretPathGo : Nat → Nat → Nat → List Bool → List Nat → Except Err (List Bool × List Nat)
  | 0, _, _, path, bytes => Except.ok (path, bytes)
  | k + 1, i, bits, path, bytes =>
    if i % 8 = 0 then
      match streamRead bytes with
      | none => Except.error Err.indeterminateRead
      | some (b, rest) => interpretPathGo k (i + 1) b path rest
    else interpretPathGo k (i + 1) bits (path ++ [decide (bits / 2 ^ (7 - i % 8) % 2 = 1)]) bytes

/-- Outer loop of `interpretDict` (main.cpp lines 204-230).  The first
argument is recursion fuel; the driver passes `bytes.length + 1`, which is
ample since every iteration past the first consumes at least one byte.  A
failed `in >> pathLength` extraction leaves the zero-initialised
`pathLength` unchanged, so end of stream is read as the sentinel and the
loop returns the map collected so far. -/
def interpretDictGo : Nat → List Nat → List (Nat × List Bool) → Except Err (List (Nat × List Bool) × List Nat)
  | 0, _, _ => Except.error Err.outOfFuel
  | fuel + 1, bytes, acc =>
    match streamRead bytes with
    | none => Except.ok (acc, [])
    | some (pathLength, r1) =>
      if pathLength = 0 then Except.ok (acc, r1)
      else
        match interpretPathGo pathLength 0 0 [] r1 with
        | Except.error e => Except.error e
        | Except.ok (path, r2) =>
          match streamRead r2 with
          | none => Except.error Err.indeterminateRead
          | some (c, r3) => interpretDictGo fuel r3 (mapInsert c path acc)

/-- `interpretDict(in)` of main.cpp: decode the dictionary section from the
byte stream; also returns the unconsumed remainder of the stream (the C++
leaves the `ifstream` positioned there). -/
def interpretDict (bytes : List Nat) : Except Err (List (Nat × List Bool) × List Nat) :=
  interpretDictGo (bytes.length + 1) bytes []

/-- Unformatted `in.get()` with an explicit eof flag, as used by `readDict`
(earlier main revision): on an exhausted stream `get()` returns -1, which
becomes 255 as an `unsigned char` (and `true` as a `bool`), and sets
eofbit.  Returns (value, rest, eof-after-read). -/
def rdGet : List Nat → Nat × List Nat × Bool
  | [] => (255, [], true)
  | b :: rest => (b, rest, false)

/-- Path-reading loop of `readDict`: `pathLength` iterations of
`if (eof) throw; bool bit = in.get(); path.push_back(bit)`.  The `bool`
conversion makes any nonzero byte a 1 bit. -/
def readPathLoop : Nat → List Nat → Bool → List Bool → Except Err (List Bool × List Nat × Bool)
  | 0, bytes, e, path => Except.ok (path, bytes, e)
  | n + 1, bytes, e, path =>
    if e then Except.error Err.unexpectedEndOfStream
    else
      match rdGet bytes with
      | (v, rest, e') => readPathLoop n rest e' (path ++ [v != 0])

/-- Outer loop of `readDict` (earlier main revision, lines 94-120): check
eof, read a path-length byte (0 is the sentinel), read that many bit bytes,
check eof, read the symbol byte, reject a symbol already present
(`DuplicateSymbol`), insert, repeat.  Fuel as for `interpretDictGo`. -/
def readDictGo : Nat → List Nat → Bool → List (Nat × List Bool) → Except Err (List (Nat × List Bool))
  | 0, _, _, _ => Except.error Err.outOfFuel
  | fuel + 1, bytes, eofF, acc =>
    if eofF then Except.error Err.unexpectedEndOfStream
    else
      match rdGet bytes with
      | (pathLength, r1, e1) =>
        if pathLength = 0 then Except.ok acc
        else
          match readPathLoop pathLength r1 e1 [] with
          | Except.error e => Except.error e
          | Except.ok (path, r2, e2) =>
            if e2 then Except.error Err.unexpectedEndOfStream
            else
              match rdGet r2 with
              | (c, r3, e3) =>
                if (mapFind? acc c).isSome then Except.error Err.duplicateSymbol
                else readDictGo fuel r3 e3 (mapInsert c path acc)

/-- `readDict(in)` of the earlier main revision. -/
def readDict (bytes : List Nat) : Except Err (List (Nat × List Bool)) :=
  readDictGo (bytes.length + 1) bytes false []

/-- Decode-side lookup structure (CharHeap.cpp).  `keys` is the dense array
(`new char[size]`), stored as bytes; `branchChar` is the `unsigned char`
sentinel; `overflowMap` holds entries whose path is longer than 13 bits. -/
structure CharHeap where
  size : Nat
  keys : List Nat
  branchChar : Nat
  overflowMap : List (List Bool × Nat)
  deriving DecidableEq, Repr

/-- Longest key length in the map (`depth` before the cap, CharHeap.cpp). -/
def maxPathLen (m : List (List Bool × Nat)) : Nat :=
  m.foldl (fun d e => max d e.1.length) 0

/-- Branch-char scan of the CharHeap constructor: iterate the map in key
order, incrementing `branchChar` while the entry's value equals it, and
stop at the first mismatch.  The comparison is `char != unsigned char`,
i.e. on the signed reading of the stored value; the increment wraps as an
`unsigned char`. -/
def bcLoop : Nat → List (List Bool × Nat) → Nat
  | bc, [] => bc
  | bc, (_, v) :: es => if toSigned v = (bc : Int) then bcLoop ((bc + 1) % 256) es else bc

/-- The `branchChar` the CharHeap constructor chooses for a map. -/
def branchCharOf (m : List (List Bool × Nat)) : Nat :=
  bcLoop 0 m

/-- Binary-heap index of a bit path: `index = index*2 + (bit ? 2 : 1)`
starting from 0 (CharHeap.cpp). -/
def indexOf (p : List Bool) : Nat :=
  p.foldl (fun i b => 2 * i + (if b then 2 else 1)) 0

/-- Insertion loop of the CharHeap constructor: paths longer than 13 bits
go to the overflow map; other paths are converted to an index, checked
against the array bound (`throw` when `index >= size`, the revision with
the defensive check; the earlier revision omits the check and writes out
of bounds), and stored. -/
def insertLoop (size : Nat) : List Nat → List (List Bool × Nat) → List (List Bool × Nat) →
    Except Err (List Nat × List (List Bool × Nat))
  | keys, ovf, [] => Except.ok (keys, ovf)
  | keys, ovf, (p, v) :: es =>
    if p.length > 13 then insertLoop size keys (pathInsert p v ovf) es
    else if indexOf p ≥ size then Except.error Err.indexOutOfRange
    else insertLoop size (keys.set (indexOf p) v) ovf es

/-- `CharHeap::CharHeap(map)`: depth = min(max key length, 13), dense array
of size `2^(depth+1) - 2` filled with `branchChar`, then the insertion
loop. -/
def CharHeap.build (m : List (List Bool × Nat)) : Except Err CharHeap :=
  let depth := min (maxPathLen m) 13
  let size := 2 ^ (depth + 1) - 2
  let bc := branchCharOf m
  (insertLoop size (List.replicate size bc) [] m).map fun ko =>
    { size := size, keys := ko.1, branchChar := bc, overflowMap := ko.2 }

/-- `CharHeap::getChar(key)`: keys longer than 13 bits are looked up in the
overflow map; otherwise the dense array is read at the key's index and the
slot compared with `branchChar` (again a signed/unsigned `char`
comparison).  The C++ reads `keys[index]` unchecked; an out-of-bounds read
(undefined behaviour, reachable only for an all-ones 13-bit key on a heap
of smaller depth) is modelled as not-found. -/
def CharHeap.getChar (h : CharHeap) (key : List Bool) : Option Nat :=
  if key.length > 13 then pathFind? h.overflowMap key
  else
    match h.keys[indexOf key]? with
    | some v => if toSigned v = (h.branchChar : Int) then none else some v
    | none => none

/-- `Interpreter::Interpreter(charMap)`: reverse the char-to-path map into
a path-to-char map (later duplicates of a path overwrite earlier ones),
then build the CharHeap. -/
def Interpreter.make (cm : List (Nat × List Bool)) : Except Err CharHeap :=
  CharHeap.build (cm.foldl (fun acc e => pathInsert e.2 e.1 acc) [])

/-- Main loop of `Interpreter::decompress` (Interpreter.cpp lines 32-47):
read one character (`in >> c`, whitespace-skipping); stop as soon as the
read reaches the end of the stream, discarding that final character; map
'1'/'0' (bytes 49/48) to bits, anything else throws; append the bit to the
accumulated key and emit a symbol whenever the CharHeap resolves it.  When
the extraction itself fails (only whitespace or nothing left) the C++ tests
`tellg() == end` with a failed stream (tellg is -1) and then reads the
indeterminate `c`: `Err.indeterminateRead`. -/
def decompressGo (h : CharHeap) : List Nat → List Bool → List Nat → Except Err (List Nat)
  | [], _, _ => Except.error Err.indeterminateRead
  | b :: rest, key, out =>
    if isWsByte b then decompressGo h rest key out
    else if rest = [] then Except.ok out
    else if b = 49 || b = 48 then
      let key1 := key ++ [decide (b = 49)]
      match h.getChar key1 with
      | some c => decompressGo h rest [] (out ++ [c])
      | none => decompressGo h rest key1 out
    else Except.error Err.invalidCharacter

/-- `Interpreter::decompress(in)` on the stream's remaining bytes. -/
def decompress (h : CharHeap) (bytes : List Nat) : Except Err (List Nat) :=
  decompressGo h bytes [] []

/-- Huffman tree nodes (HuffmanTree.h): a leaf holds a character and its
frequency; a branch holds the summed frequency and two children. -/
inductive HTree where
  | leaf (c : Nat) (freq : Nat)
  | branch (freq : Nat) (l r : HTree)
  deriving DecidableEq, Repr

/-- Frequency of a node. -/
def HTree.freq : HTree → Nat
  | HTree.leaf _ f => f
  | HTree.branch f _ _ => f

/-- `countChars(input)` (HuffmanTree.cpp): frequency map of the input
bytes, in `std::map<char, int>` order. -/
def countChars (input : List Nat) : List (Nat × Nat) :=
  input.foldl (fun acc c => mapInsert c ((mapFind? acc c).getD 0 + 1) acc) []

/-- Pop the minimum-frequency node from the queue.  `std::priority_queue`
with the `CompareValue` comparator pops a node of least frequency; its
order among nodes of equal frequency is unspecified (heap layout), and the
model takes the earliest such node.  The concrete instances evaluated below
have pairwise distinct frequencies, where both orders agree. -/
def popMin : List HTree → Option (HTree × List HTree)
  | [] => none
  | [t] => some (t, [])
  | t :: ts =>
    match popMin ts with
    | some (u, rest) => if t.freq ≤ u.freq then some (t, ts) else some (u, t :: rest)
    | none => some (t, [])

/-- Merge loop of the HuffmanTree constructor: while more than one node
remains, pop the two least nodes and push a branch whose frequency is their
sum (the first popped becomes the left child).  The first argument is fuel
(one merge per unit); the driver passes the queue length. -/
def huffLoop : Nat → List HTree → Option HTree
  | _, [] => none
  | _, [t] => some t
  | 0, _ :: _ :: _ => none
  | fuel + 1, q =>
    match popMin q with
    | none => none
    | some (a, r1) =>
      match popMin r1 with
      | none => none
      | some (b, r2) => huffLoop fuel (r2 ++ [HTree.branch (a.freq + b.freq) a b])

/-- `HuffmanTree::HuffmanTree(input)`: leaves from the frequency map (in
map order), then the merge loop.  `none` only for empty input (the C++
would call `top()` on an empty queue). -/
def huffmanTree (input : List Nat) : Option HTree :=
  let leaves := (countChars input).map fun e => HTree.leaf e.1 e.2
  huffLoop leaves.length leaves

/-- `Node::getKeys()` (HuffmanTree.cpp): collect each leaf's character with
its root-to-leaf path (left = 0, right = 1); a branch merges the right
map's entries into the left map.  The C++ threads the path through a shared
mutable buffer whose pushes and pops balance out to exactly this; for a
root that is itself a leaf it additionally pops from the empty buffer
(undefined behaviour, the degenerate single-symbol input). -/
def HTree.getKeysAux : HTree → List Bool → List (Nat × List Bool)
  | HTree.leaf c _, p => [(c, p)]
  | HTree.branch _ l r, p =>
    (HTree.getKeysAux r (p ++ [true])).foldl (fun acc e => mapInsert e.1 e.2 acc)
      (HTree.getKeysAux l (p ++ [false]))

/-- `HuffmanTree::getKeys()`. -/
def HTree.getKeys (t : HTree) : List (Nat × List Bool) :=
  HTree.getKeysAux t []

/-- The encode pipeline of main.cpp's `main`: build the Huffman tree and
its code table from the input, serialize the dictionary (`vectorDict` then
`writeOutDict`), and append the chunked compressed body (`compress`); the
container is the dictionary bytes, the extra null byte, and the chunk bytes
in order. -/
def encodeContainer (input : List Nat) : Except Err (List Nat) :=
  match huffmanTree input with
  | none => Except.error Err.emptyInput
  | some t => do
    let cm := t.getKeys
    let dictBits ← vectorDict cm
    let chunks ← compress cm input
    return writeOutDict dictBits ++ chunks.flatten

/-- The decode pipeline matching the claim's sources: decode the dictionary
section (`interpretDict`), build the Interpreter (and its CharHeap) from
the decoded table, and decompress the rest of the stream. -/
def decodeContainer (bytes : List Nat) : Except Err (List Nat) := do
  let mr ← interpretDict bytes
  let h ← Interpreter.make mr.1
  decompress h mr.2

/-- Concrete code table driving the chunk-overflow branch: symbol 65 has a
79993-bit all-zero path (8 header bits + 79993 > 80000 triggers the
overflow on the very first symbol), symbol 66 a 1-bit path.  `compress`
imposes no bound on path lengths; the same overflow behaviour occurs with
short paths once enough symbols accumulate, this instance merely reaches
the boundary in two loop iterations. -/
def cmapLong : List (Nat × List Bool) :=
  [(65, List.replicate 79993 false), (66, [false])]

/-- Concrete path-to-symbol map (in `std::map` iteration order) on which
the branch-char scan stops at 1 although 1 is a stored symbol: the scan
sees values 0, 2, 1 and stops at the mismatch 2 ≠ 1. -/
def cmapBad : List (List Bool × Nat) :=
  [([false], 0), ([true, false], 2), ([true, true, false], 1)]

/-- All bit paths of length `n` in lexicographic (std::map) order. -/
def allPaths : Nat → List (List Bool)
  | 0 => [[]]
  | n + 1 => (allPaths n).map (fun p => false :: p) ++ (allPaths n).map (fun p => true :: p)

/-- Concrete 128-entry map whose values, read in path order, are
0, 1, ..., 127: the branch-char scan then ends at 128, whose `char` cast
(-128) no longer compares equal to the `unsigned char` sentinel.  The
all-ones 7-bit path is replaced by an 8-bit path so that construction
stays inside the dense array. -/
def cmap10 : List (List Bool × Nat) :=
  ((((allPaths 7).filter (fun p => p ≠ List.replicate 7 true)) ++
    [List.replicate 7 true ++ [false]]).enum).map (fun e => (e.2, e.1))

/-- Byte encoding of one dictionary entry in the earlier revision's format
read by `readDict`: a path-length byte, one byte per path bit, and the
symbol byte (see `writeDict`: `0x03 FF 00 FF 61` for a 3-bit path). -/
def dictEntryBytes (e : Nat × List Nat) : List Nat :=
  e.2.length :: (e.2 ++ [e.1])

/-! ## Helper lemmas -/

theorem ite_mod_two (n : Nat) : (if n % 2 = 1 then (1 : Nat) else 0) = n % 2 := by
  split <;> omega

theorem writeOutGo_eight (b7 b6 b5 b4 b3 b2 b1 b0 : Bool) (rest : List Bool) :
    writeOutGo (b7 :: b6 :: b5 :: b4 :: b3 :: b2 :: b1 :: b0 :: rest) 0 0 =
      (128 * cond b7 1 0 + 64 * cond b6 1 0 + 32 * cond b5 1 0 + 16 * cond b4 1 0 +
        8 * cond b3 1 0 + 4 * cond b2 1 0 + 2 * cond b1 1 0 + cond b0 1 0) ::
        writeOutGo rest 0 0 := by
  rcases b7 <;> rcases b6 <;> rcases b5 <;> rcases b4 <;> rcases b3 <;> rcases b2 <;>
    rcases b1 <;> rcases b0 <;> rfl

theorem writeOutGo_byte (t : Nat) (ht : t < 256) (rest : List Bool) :
    writeOutGo (byteBitsMSB t ++ rest) 0 0 = t :: writeOutGo rest 0 0 := by
  show writeOutGo (_ :: _ :: _ :: _ :: _ :: _ :: _ :: _ :: rest) 0 0 = _
  rw [writeOutGo_eight]
  congr 1
  simp only [Bool.cond_decide, ite_mod_two]
  omega

theorem writeOut_byte (t : Nat) (ht : t < 256) (rest : List Bool) :
    writeOut (byteBitsMSB t ++ rest) = t :: writeOut rest :=
  writeOutGo_byte t ht rest

theorem byteBitsMSB_zero : byteBitsMSB 0 = List.replicate 8 false := by decide

theorem writeOut_replicate_zero :
    ∀ k : Nat, writeOut (List.replicate (8 * k) false) = List.replicate k 0 := by
  intro k
  induction k with
  | zero => rfl
  | succ n ih =>
    have h8 : 8 * (n + 1) = 8 + 8 * n := by ring
    rw [h8, List.replicate_add, ← byteBitsMSB_zero, writeOut_byte 0 (by norm_num), ih,
      List.replicate_succ]

theorem bytesToBits_replicate_zero : ∀ k : Nat,
    bytesToBits (List.replicate k 0) = List.replicate (8 * k) false := by
  intro k
  induction k with
  | zero => rfl
  | succ n ih =>
    rw [List.replicate_succ, bytesToBits, List.map_cons, List.flatten_cons]
    rw [bytesToBits] at ih
    rw [ih, byteBitsMSB_zero, ← List.replicate_add]
    congr 1
    ring

theorem overflowFlush_replicate8 :
    overflowFlush (List.replicate 8 false) = 120 :: List.replicate 9999 0 := by
  rw [overflowFlush, setFirst8]
  have h1 : (List.replicate 8 (false : Bool)).length = 8 := by simp
  rw [h1]
  norm_num
  rw [writeOut_byte 120 (by norm_num), show (79992 : Nat) = 8 * 9999 by norm_num,
    writeOut_replicate_zero]

theorem padFinal_single : writeOut (padFinal [false]) = [7] := by decide

theorem compress_cmapLong :
    compress cmapLong [65, 66] = Except.ok [120 :: List.replicate 9999 0, [7]] := by
  have h65 : mapFind? cmapLong 65 = some (List.replicate 79993 false) := rfl
  have h66 : mapFind? cmapLong 66 = some [false] := rfl
  have hlen : (List.replicate 8 (false : Bool) ++ List.replicate 79993 false).length = 80001 := by
    rw [List.length_append, List.length_replicate, List.length_replicate]
  have hpop : popBack 79993 (List.replicate 8 (false : Bool) ++ List.replicate 79993 false) =
      List.replicate 8 false := by
    rw [popBack, hlen, show (80001 - 79993 : Nat) = 8 from by norm_num]
    exact List.take_left' (by rw [List.length_replicate])
  rw [compress]
  simp only [compressGo, h65, h66, List.length_replicate, hlen,
    show isWsByte 65 = false from rfl, show isWsByte 66 = false from rfl,
    Bool.false_eq_true, if_false, List.nil_append, List.length_append, List.length_cons,
    List.length_nil]
  rw [hpop, overflowFlush_replicate8, padFinal_single,
    if_pos (by norm_num : (80001 : Nat) > 80000),
    if_neg (by norm_num : ¬((0 + 1 : Nat) > 80000))]
  rfl

theorem replicate_isPrefixOf_false :
    ∀ n m : Nat, m < n →
      (List.replicate n (false : Bool)).isPrefixOf (List.replicate m false) = false := by
  intro n
  induction n with
  | zero => intro m h; omega
  | succ k ih =>
    intro m h
    cases m with
    | zero => rfl
    | succ m' =>
      rw [List.replicate_succ, List.replicate_succ, List.isPrefixOf, ih m' (by omega)]
      rfl

theorem decompressGo_all01 (h : CharHeap) :
    ∀ (bytes : List Nat) (key : List Bool) (out : List Nat), bytes ≠ [] →
      (∀ b ∈ bytes, b = 48 ∨ b = 49) → ∃ s, decompressGo h bytes key out = Except.ok s := by
  intro bytes
  induction bytes with
  | nil => intro _ _ hne _; exact absurd rfl hne
  | cons b rest ih =>
    intro key out _ h01
    have hb : b = 48 ∨ b = 49 := h01 b (List.mem_cons_self b rest)
    have hws : isWsByte b = false := by rcases hb with hb | hb <;> subst hb <;> rfl
    have h49 : (b = 49 || b = 48) = true := by
      rcases hb with hb | hb <;> subst hb <;> rfl
    have hrest01 : ∀ x ∈ rest, x = 48 ∨ x = 49 := fun x hx =>
      h01 x (List.mem_cons_of_mem b hx)
    rw [decompressGo, hws]
    by_cases hrE : rest = []
    · simp only [Bool.false_eq_true, if_false, if_pos hrE]
      exact ⟨out, rfl⟩
    · simp only [Bool.false_eq_true, if_false, if_neg hrE, h49, if_true]
      cases hget : h.getChar (key ++ [decide (b = 49)]) with
      | some c => exact ih [] (out ++ [c]) hrE hrest01
      | none => exact ih (key ++ [decide (b = 49)]) out hrE hrest01

theorem readPathLoop_append :
    ∀ (bs : List Nat) (tail : List Nat) (path : List Bool),
      readPathLoop bs.length (bs ++ tail) false path =
        Except.ok (path ++ bs.map (fun v => v != 0), tail, false) := by
  intro bs
  induction bs with
  | nil => intro tail path; simp [readPathLoop]
  | cons v rest ih =>
    intro tail path
    rw [List.length_cons, List.cons_append, readPathLoop]
    simp only [Bool.false_eq_true, if_false, rdGet]
    rw [ih tail (path ++ [v != 0])]
    simp

theorem mapFind?_mapInsert_self {α : Type} (k : Nat) (v : α) :
    ∀ m : List (Nat × α), mapFind? (mapInsert k v m) k = some v := by
  intro m
  induction m with
  | nil => simp [mapInsert, mapFind?]
  | cons e rest ih =>
    rw [mapInsert]
    by_cases h1 : charLt k e.1 = true
    · rw [if_pos h1, mapFind?, if_pos rfl]
    · rw [if_neg h1]
      by_cases h2 : k = e.1
      · rw [if_pos h2, mapFind?, if_pos rfl]
      · rw [if_neg h2, mapFind?, if_neg h2, ih]

theorem mapFind?_mapInsert_ne {α : Type} (k : Nat) (v : α) (k' : Nat) (hne : k' ≠ k) :
    ∀ m : List (Nat × α), mapFind? (mapInsert k v m) k' = mapFind? m k' := by
  intro m
  induction m with
  | nil => simp [mapInsert, mapFind?, hne]
  | cons e rest ih =>
    rw [mapInsert]
    by_cases h1 : charLt k e.1 = true
    · rw [if_pos h1, mapFind?, if_neg hne]
    · rw [if_neg h1]
      by_cases h2 : k = e.1
      · subst h2
        rw [if_pos rfl, mapFind?, mapFind?, if_neg hne, if_neg hne]
      · rw [if_neg h2, mapFind?, mapFind?, ih]

theorem readDictGo_entry (fuel : Nat) (s : Nat) (bs tail : List Nat)
    (acc : List (Nat × List Bool)) (h1 : 1 ≤ bs.length) :
    readDictGo (fuel + 1) (bs.length :: (bs ++ s :: tail)) false acc =
      if (mapFind? acc s).isSome then Except.error Err.duplicateSymbol
      else readDictGo fuel tail false (mapInsert s (bs.map (fun v => v != 0)) acc) := by
  rw [readDictGo]
  simp only [Bool.false_eq_true, if_false, rdGet]
  rw [if_neg (by omega : ¬ bs.length = 0), readPathLoop_append bs (s :: tail) []]
  simp only [List.nil_append, Bool.false_eq_true, if_false, rdGet]

theorem length_le_flatten_dictEntryBytes :
    ∀ entries : List (Nat × List Nat),
      entries.length ≤ ((entries.map dictEntryBytes).flatten).length := by
  intro entries
  induction entries with
  | nil => simp
  | cons e rest ih =>
    rw [List.map_cons, List.flatten_cons, List.length_append, List.length_cons, dictEntryBytes]
    simp only [List.length_cons]
    omega

theorem readDictGo_dup :
    ∀ (entries : List (Nat × List Nat)) (fuel : Nat) (rest : List Nat)
      (acc : List (Nat × List Bool)),
      (∀ e ∈ entries, 1 ≤ e.2.length) →
      entries.length < fuel →
      (¬ (entries.map Prod.fst).Nodup ∨ ∃ s ∈ entries.map Prod.fst, (mapFind? acc s).isSome) →
      readDictGo fuel ((entries.map dictEntryBytes).flatten ++ 0 :: rest) false acc =
        Except.error Err.duplicateSymbol := by
  intro entries
  induction entries with
  | nil =>
    intro fuel rest acc _ _ hbad
    rcases hbad with hbad | ⟨s, hs, _⟩
    · exact absurd List.nodup_nil hbad
    · simp at hs
  | cons e es ih =>
    intro fuel rest acc hwf hfuel hbad
    obtain ⟨f', rfl⟩ : ∃ f', fuel = f' + 1 := ⟨fuel - 1, by omega⟩
    rw [List.map_cons, List.flatten_cons, dictEntryBytes]
    have hstep := readDictGo_entry f' e.1 e.2 ((es.map dictEntryBytes).flatten ++ 0 :: rest) acc
      (hwf e (List.mem_cons_self e es))
    simp only [List.cons_append, List.append_assoc, List.singleton_append,
      List.nil_append] at hstep ⊢
    rw [hstep]
    by_cases hdup : (mapFind? acc e.1).isSome = true
    · rw [if_pos hdup]
    · rw [if_neg hdup]
      refine ih f' rest _ (fun x hx => hwf x (List.mem_cons_of_mem e hx)) (by simpa using hfuel) ?_
      rcases hbad with hbad | ⟨s, hs, hsome⟩
      · rw [List.map_cons, List.nodup_cons] at hbad
        push_neg at hbad
        by_cases hmem : e.1 ∈ es.map Prod.fst
        · exact Or.inr ⟨e.1, hmem, by rw [mapFind?_mapInsert_self]; rfl⟩
        · exact Or.inl (hbad hmem)
      · rw [List.map_cons, List.mem_cons] at hs
        rcases hs with hs | hs
        · subst hs
          exact absurd hsome hdup
        · by_cases hse : s = e.1
          · exact Or.inr ⟨s, hs, by subst hse; rw [mapFind?_mapInsert_self]; rfl⟩
          · exact Or.inr ⟨s, hs, by rw [mapFind?_mapInsert_ne e.1 _ s hse]; exact hsome⟩

theorem indexOf_append (p : List Bool) (b : Bool) :
    indexOf (p ++ [b]) = 2 * indexOf p + (if b then 2 else 1) := by
  rw [indexOf, indexOf, List.foldl_append]
  rfl

theorem indexOf_pos (p : List Bool) (hne : p ≠ []) : 1 ≤ indexOf p := by
  induction p using List.reverseRecOn with
  | nil => exact absurd rfl hne
  | append_singleton q b _ =>
    rw [indexOf_append]
    split <;> omega

theorem indexOf_inj : ∀ p q : List Bool, indexOf p = indexOf q → p = q := by
  have h0 : indexOf ([] : List Bool) = 0 := rfl
  intro p
  induction p using List.reverseRecOn with
  | nil =>
    intro q
    induction q using List.reverseRecOn with
    | nil => intro _; rfl
    | append_singleton r b _ =>
      intro hq
      exfalso
      rw [indexOf_append, h0] at hq
      split at hq <;> omega
  | append_singleton p' a ih =>
    intro q
    induction q using List.reverseRecOn with
    | nil =>
      intro hq
      exfalso
      rw [indexOf_append, h0] at hq
      split at hq <;> omega
    | append_singleton q' b _ =>
      intro hq
      rw [indexOf_append, indexOf_append] at hq
      have hab : a = b := by
        rcases a <;> rcases b <;> simp at hq ⊢ <;> omega
      subst hab
      have hpq : indexOf p' = indexOf q' := by
        split at hq <;> omega
      rw [ih q' hpq]

theorem pathFind?_pathInsert_self {α : Type} (p : List Bool) (v : α) :
    ∀ m : List (List Bool × α), pathFind? (pathInsert p v m) p = some v := by
  intro m
  induction m with
  | nil => simp [pathInsert, pathFind?]
  | cons e rest ih =>
    rw [pathInsert]
    by_cases h1 : pathLt p e.1 = true
    · rw [if_pos h1, pathFind?, if_pos rfl]
    · rw [if_neg h1]
      by_cases h2 : p = e.1
      · rw [if_pos h2, pathFind?, if_pos rfl]
      · rw [if_neg h2, pathFind?, if_neg h2, ih]

theorem pathFind?_pathInsert_ne {α : Type} (p : List Bool) (v : α) (p' : List Bool)
    (hne : p' ≠ p) : ∀ m : List (List Bool × α),
      pathFind? (pathInsert p v m) p' = pathFind? m p' := by
  intro m
  induction m with
  | nil => simp [pathInsert, pathFind?, hne]
  | cons e rest ih =>
    rw [pathInsert]
    by_cases h1 : pathLt p e.1 = true
    · rw [if_pos h1, pathFind?, if_neg hne]
    · rw [if_neg h1]
      by_cases h2 : p = e.1
      · subst h2
        rw [if_pos rfl, pathFind?, pathFind?, if_neg hne, if_neg hne]
      · rw [if_neg h2, pathFind?, pathFind?, ih]

theorem pathFind?_eq_none_not_mem {α : Type} :
    ∀ (m : List (List Bool × α)) (p : List Bool), pathFind? m p = none →
      ∀ t, (p, t) ∉ m := by
  intro m
  induction m with
  | nil => intro p _ t ht; simp at ht
  | cons e rest ih =>
    intro p hnone t ht
    rw [pathFind?] at hnone
    rcases List.mem_cons.mp ht with he | hmem
    · rw [← he] at hnone
      rw [if_pos rfl] at hnone
      exact Option.some_ne_none t hnone
    · by_cases hpe : p = e.1
      · rw [if_pos hpe] at hnone
        exact Option.some_ne_none e.2 hnone
      · rw [if_neg hpe] at hnone
        exact ih p hnone t hmem

theorem toSigned_of_lt128 (b : Nat) (hb : b < 128) : toSigned b = (b : Int) := by
  rw [toSigned, if_pos hb]

theorem insertLoop_get_untouched (size : Nat) (i : Nat) :
    ∀ (es : List (List Bool × Nat)) (keys : List Nat) (ovf : List (List Bool × Nat)) KO,
      insertLoop size keys ovf es = Except.ok KO →
      (∀ q t, (q, t) ∈ es → q.length ≤ 13 → indexOf q ≠ i) →
      KO.1[i]? = keys[i]? := by
  intro es
  induction es with
  | nil =>
    intro keys ovf KO h _
    rw [insertLoop] at h
    cases h
    rfl
  | cons e rest ih =>
    intro keys ovf KO h hq
    rw [insertLoop] at h
    by_cases h13 : e.1.length > 13
    · rw [if_pos h13] at h
      exact ih _ _ _ h (fun q t hqt => hq q t (List.mem_cons_of_mem e hqt))
    · rw [if_neg h13] at h
      by_cases hge : indexOf e.1 ≥ size
      · rw [if_pos hge] at h
        cases h
      · rw [if_neg hge] at h
        rw [ih _ _ _ h (fun q t hqt => hq q t (List.mem_cons_of_mem e hqt))]
        exact List.getElem?_set_ne (hq e.1 e.2 (by simp) (by omega))

theorem insertLoop_get_of_mem (size : Nat) :
    ∀ (es : List (List Bool × Nat)) (keys : List Nat) (ovf : List (List Bool × Nat)) KO
      (p : List Bool) (s : Nat),
      insertLoop size keys ovf es = Except.ok KO →
      (p, s) ∈ es → p.length ≤ 13 → (es.map Prod.fst).Nodup →
      indexOf p < keys.length →
      KO.1[indexOf p]? = some s := by
  intro es
  induction es with
  | nil =>
    intro keys ovf KO p s _ hmem
    simp at hmem
  | cons e rest ih =>
    intro keys ovf KO p s h hmem h13 hnd hlt
    rw [insertLoop] at h
    rw [List.map_cons, List.nodup_cons] at hnd
    rcases List.mem_cons.mp hmem with he | hmem'
    · have hp : e.1 = p := by rw [← he]
      have hs : e.2 = s := by rw [← he]
      rw [hp, hs] at h
      rw [if_neg (by omega : ¬ p.length > 13)] at h
      by_cases hge : indexOf p ≥ size
      · rw [if_pos hge] at h
        cases h
      · rw [if_neg hge] at h
        rw [insertLoop_get_untouched size (indexOf p) rest _ _ _ h]
        · exact List.getElem?_set_self hlt
        · intro q t hqt _ heq
          have hqp := indexOf_inj q p heq
          subst hqp
          exact hnd.1 (hp ▸ List.mem_map_of_mem Prod.fst hqt)
    · by_cases h13e : e.1.length > 13
      · rw [if_pos h13e] at h
        exact ih _ _ _ p s h hmem' h13 hnd.2 hlt
      · rw [if_neg h13e] at h
        by_cases hge : indexOf e.1 ≥ size
        · rw [if_pos hge] at h
          cases h
        · rw [if_neg hge] at h
          exact ih _ _ _ p s h hmem' h13 hnd.2 (by rwa [List.length_set])

theorem insertLoop_ovf_untouched (size : Nat) (p : List Bool) :
    ∀ (es : List (List Bool × Nat)) (keys : List Nat) (ovf : List (List Bool × Nat)) KO,
      insertLoop size keys ovf es = Except.ok KO →
      (∀ t, (p, t) ∉ es) →
      pathFind? KO.2 p = pathFind? ovf p := by
  intro es
  induction es with
  | nil =>
    intro keys ovf KO h _
    rw [insertLoop] at h
    cases h
    rfl
  | cons e rest ih =>
    intro keys ovf KO h hnm
    rw [insertLoop] at h
    have hnm' : ∀ t, (p, t) ∉ rest := fun t ht => hnm t (List.mem_cons_of_mem e ht)
    have hpe : p ≠ e.1 := by
      intro hpe
      exact hnm e.2 (by rw [hpe]; simp)
    by_cases h13 : e.1.length > 13
    · rw [if_pos h13] at h
      rw [ih _ _ _ h hnm', pathFind?_pathInsert_ne e.1 e.2 p hpe]
    · rw [if_neg h13] at h
      by_cases hge : indexOf e.1 ≥ size
      · rw [if_pos hge] at h
        cases h
      · rw [if_neg hge] at h
        exact ih _ _ _ h hnm'

theorem insertLoop_ovf_of_mem (size : Nat) :
    ∀ (es : List (List Bool × Nat)) (keys : List Nat) (ovf : List (List Bool × Nat)) KO
      (p : List Bool) (s : Nat),
      insertLoop size keys ovf es = Except.ok KO →
      (p, s) ∈ es → 13 < p.length → (es.map Prod.fst).Nodup →
      pathFind? KO.2 p = some s := by
  intro es
  induction es with
  | nil =>
    intro keys ovf KO p s _ hmem
    simp at hmem
  | cons e rest ih =>
    intro keys ovf KO p s h hmem h13 hnd
    rw [insertLoop] at h
    rw [List.map_cons, List.nodup_cons] at hnd
    rcases List.mem_cons.mp hmem with he | hmem'
    · have hp : e.1 = p := by rw [← he]
      have hs : e.2 = s := by rw [← he]
      rw [hp, hs] at h
      rw [if_pos (by omega : p.length > 13)] at h
      rw [insertLoop_ovf_untouched size p rest _ _ _ h]
      · exact pathFind?_pathInsert_self p s ovf
      · intro t ht
        exact hnd.1 (hp ▸ List.mem_map_of_mem Prod.fst ht)
    · by_cases h13e : e.1.length > 13
      · rw [if_pos h13e] at h
        exact ih _ _ _ p s h hmem' h13 hnd.2
      · rw [if_neg h13e] at h
        by_cases hge : indexOf e.1 ≥ size
        · rw [if_pos hge] at h
          cases h
        · rw [if_neg hge] at h
          exact ih _ _ _ p s h hmem' h13 hnd.2

theorem insertLoop_bound (size : Nat) :
    ∀ (es : List (List Bool × Nat)) (keys : List Nat) (ovf : List (List Bool × Nat)) KO,
      insertLoop size keys ovf es = Except.ok KO →
      ∀ p s, (p, s) ∈ es → p.length ≤ 13 → indexOf p < size := by
  intro es
  induction es with
  | nil =>
    intro keys ovf KO _ p s hmem
    simp at hmem
  | cons e rest ih =>
    intro keys ovf KO h p s hmem h13
    rw [insertLoop] at h
    rcases List.mem_cons.mp hmem with he | hmem'
    · have hp : e.1 = p := by rw [← he]
      rw [hp] at h
      rw [if_neg (by omega : ¬ p.length > 13)] at h
      by_cases hge : indexOf p ≥ size
      · rw [if_pos hge] at h
        cases h
      · omega
    · by_cases h13e : e.1.length > 13
      · rw [if_pos h13e] at h
        exact ih _ _ _ h p s hmem' h13
      · rw [if_neg h13e] at h
        by_cases hge : indexOf e.1 ≥ size
        · rw [if_pos hge] at h
          cases h
        · rw [if_neg hge] at h
          exact ih _ _ _ h p s hmem' h13

theorem build_ok_elim (m : List (List Bool × Nat)) (h : CharHeap)
    (hb : CharHeap.build m = Except.ok h) :
    insertLoop h.size (List.replicate h.size h.branchChar) [] m =
      Except.ok (h.keys, h.overflowMap) ∧
    h.size = 2 ^ (min (maxPathLen m) 13 + 1) - 2 ∧ h.branchChar = branchCharOf m := by
  rw [CharHeap.build] at hb
  cases hins : insertLoop (2 ^ (min (maxPathLen m) 13 + 1) - 2)
      (List.replicate (2 ^ (min (maxPathLen m) 13 + 1) - 2) (branchCharOf m)) [] m with
  | error e =>
    rw [hins] at hb
    cases hb
  | ok KO =>
    rw [hins] at hb
    cases hb
    refine ⟨?_, rfl, rfl⟩
    simpa using hins

theorem foldl_max_le_init : ∀ (m : List (List Bool × Nat)) (d : Nat),
    d ≤ m.foldl (fun a e => max a e.1.length) d := by
  intro m
  induction m with
  | nil => intro d; exact le_refl d
  | cons e rest ih => intro d; exact le_trans (le_max_left d e.1.length) (ih _)

theorem mem_le_foldl_max :
    ∀ (m : List (List Bool × Nat)) (d : Nat) (p : List Bool) (v : Nat),
      (p, v) ∈ m → p.length ≤ m.foldl (fun a e => max a e.1.length) d := by
  intro m
  induction m with
  | nil => intro d p v hmem; simp at hmem
  | cons e rest ih =>
    intro d p v hmem
    rw [List.foldl_cons]
    rcases List.mem_cons.mp hmem with he | hmem'
    · have hp : e.1 = p := by rw [← he]
      refine le_trans ?_ (foldl_max_le_init rest _)
      rw [hp]
      exact le_max_right d p.length
    · exact ih _ p v hmem'

theorem le_maxPathLen (m : List (List Bool × Nat)) (p : List Bool) (v : Nat)
    (hmem : (p, v) ∈ m) : p.length ≤ maxPathLen m :=
  mem_le_foldl_max m 0 p v hmem

/-! ## Claim theorems -/

/-- Claim C1 (code bug): the claimed round-trip `decode(encode(b)) = b`
fails.  For the input bytes "aaab" the encode pipeline (Huffman table
a↦1, b↦0; dictionary bytes 01 80 61 01 00 62 00; extra null; body chunk
04 E0) produces the container shown, and decoding it errors out instead of
returning the input: `interpretDict` drops the single path bit of each
entry (see C3), the collapsed table {a↦[], b↦[]} inverts to {[]↦b}, and
the CharHeap constructor rejects index 0 against its size-0 array.  Even
ignoring the dictionary collapse, `decompress` accepts only ASCII '0'/'1'
payload bytes while `compress` writes bit-packed chunks. -/
theorem roundTrip_aaab_fails :
    encodeContainer [97, 97, 97, 98] = Except.ok [1, 128, 97, 1, 0, 98, 0, 0, 4, 224] ∧
    (encodeContainer [97, 97, 97, 98]).bind decodeContainer = Except.error Err.indexOutOfRange := by
  decide

/-- Claim C2 (code bug): the writer does not restart the fresh chunk with
the backed-out symbol — the symbol is lost.  With `cmapLong` (symbol 65
carries a 79993-bit path) and input [65, 66], symbol 65 overflows the
80000-bit boundary; the code pops its bits, pads, flushes a chunk of pure
filler (header 120, payload 9999 zero bytes), clears the buffer and moves
on to symbol 66.  Neither the flushed chunk's payload nor the next chunk's
payload begins with symbol 65's path (the final chunk has no payload bits
at all), so 65's code is absent from the container. -/
theorem chunk_overflow_symbol_dropped :
    compress cmapLong [65, 66] = Except.ok [120 :: List.replicate 9999 0, [7]] ∧
    (List.replicate 79993 false).isPrefixOf
      (bytesToBits ((120 :: List.replicate 9999 0).drop 1)) = false ∧
    (List.replicate 79993 false).isPrefixOf (bytesToBits (([7] : List Nat).drop 1)) = false := by
  refine ⟨compress_cmapLong, ?_, ?_⟩
  · rw [List.drop_one, List.tail_cons, bytesToBits_replicate_zero]
    exact replicate_isPrefixOf_false 79993 (8 * 9999) (by norm_num)
  · rw [List.replicate_succ]
    rfl

/-- Claim C3 (code bug): the dictionary round-trip
`interpretDict (writeOut (vectorDict m)) = m` fails, contradicting
main.cpp's own `assert(newCharMap == charMap)`.  For the one-entry table
{97 ↦ [1]} the serialized bytes are 01 80 61 00, but `interpretDict`'s
inner loop pushes no bit on byte-read iterations (`i % 8 == 0`), so the
decoded table is {97 ↦ []}. -/
theorem interpretDict_drops_first_bit :
    (vectorDict [(97, [true])]).map writeOut = Except.ok [1, 128, 97, 0] ∧
    interpretDict [1, 128, 97, 0] = Except.ok ([(97, [])], []) ∧
    (([(97, ([] : List Bool))] == [(97, [true])]) : Bool) = false := by
  decide

/-- Claim C4, counterexample: the first (non-final) of the two chunks the
writer produces for `cmapLong` on input [65, 66] declares 120 trailing
bits in its header byte, refuting "trailingBitCount is 0 for every chunk
except possibly the last". -/
theorem nonfinal_chunk_nonzero_trailing :
    compress cmapLong [65, 66] = Except.ok [120 :: List.replicate 9999 0, [7]] ∧
    (([120 :: List.replicate 9999 0, [7]] : List (List Nat)).dropLast.all
      fun c => c.head? == some 0) = false := by
  refine ⟨compress_cmapLong, ?_⟩
  rfl

/-- Claim C4, amended: a chunk flushed at the 80000-bit overflow records
in its first byte the number of filler bits appended after the straddling
symbol was backed out, reduced mod 256 — for a buffer of `d` retained bits
that is `(80000 - d.length) % 256`, which is nonzero whenever the retained
payload does not end exactly at the chunk capacity (mod 256).  Non-final
chunks therefore routinely carry nonzero trailing counts. -/
theorem overflowFlush_header_records_filler (d : List Bool) (h8 : 8 ≤ d.length)
    (hcap : d.length ≤ 80000) :
    (overflowFlush d).head? = some ((80000 - d.length) % 256) := by
  rw [overflowFlush, setFirst8, writeOut, writeOutGo_byte _ (Nat.mod_lt _ (by norm_num)),
    List.head?]

/-- Witness for the amended C4 theorem at the concrete buffer of 8 retained
bits (the reserved header only): the flushed chunk's first byte is
(80000 - 8) % 256 = 120. -/
theorem overflowFlush_header_records_filler_witness :
    8 ≤ (List.replicate 8 (false : Bool)).length ∧
    (overflowFlush (List.replicate 8 false)).head? = some 120 := by
  refine ⟨by rw [List.length_replicate], ?_⟩
  have h := overflowFlush_header_records_filler (List.replicate 8 false)
    (by rw [List.length_replicate]) (by rw [List.length_replicate]; norm_num)
  rw [List.length_replicate] at h
  norm_num at h
  exact h

/-- Claim C5, counterexample: decoding the two-byte stream "00" against
the table {97 ↦ 00} ends with the non-empty unresolved candidate path [0]
(the final byte is never processed, and the single processed bit resolves
no symbol), yet `decompress` returns the empty output successfully instead
of failing with a TruncatedStream error. -/
theorem decompress_truncated_returns_partial :
    (Interpreter.make [(97, [false, false])]).bind (fun h => decompress h [48, 48]) =
      Except.ok [] := by
  decide

/-- Claim C5, amended: when the bit supply ends while `candidatePath` is
non-empty and unresolved, `decompress` silently returns the partial output
accumulated so far — on any non-empty stream of ASCII '0'/'1' bytes it
always succeeds, never raising an error (its only throw is for bytes other
than '0'/'1'). -/
theorem decompress_all01_returns_ok (h : CharHeap) (bytes : List Nat) (hne : bytes ≠ [])
    (h01 : ∀ b ∈ bytes, b = 48 ∨ b = 49) :
    ∃ s, decompress h bytes = Except.ok s :=
  decompressGo_all01 h bytes [] [] hne h01

/-- Witness for the amended C5 theorem at a concrete heap and the
single-byte stream "0". -/
theorem decompress_all01_returns_ok_witness :
    ∃ s, decompress ⟨6, [0, 0, 0, 97, 0, 0], 0, []⟩ [48] = Except.ok s :=
  decompress_all01_returns_ok ⟨6, [0, 0, 0, 97, 0, 0], 0, []⟩ [48] (by simp) (by decide)

/-- Claim C6, counterexample: on the map {[0]↦0, [10]↦2, [110]↦1} the
constructor's branch-char scan picks 1 (values in path order are 0, 2, 1:
it increments past 0 and stops at the mismatch 2 ≠ 1), which is exactly
the symbol stored for the inserted path [1,1,0] — so `getChar` on that
inserted path returns empty instead of its symbol. -/
theorem charHeap_inserted_pair_lookup_empty :
    (CharHeap.build cmapBad).map (fun h => h.getChar [true, true, false]) = Except.ok none ∧
    pathFind? cmapBad [true, true, false] = some 1 := by
  decide

/-- Claim C6, amended: for a CharHeap successfully built from a map with
distinct paths, (a) every inserted (path, symbol) pair with either a path
longer than 13 bits or a symbol whose signed char reading differs from the
branch char satisfies `getChar path = some symbol`; and (b) every path not
in the map (in particular every strict prefix of an inserted path that is
not itself inserted) yields `getChar = none`, provided the branch char is
below 128 (so its signed and unsigned readings agree) and the path's dense
index is in bounds when the path is short (automatic except for the
all-ones 13-bit prefix of an overflow path, where the C++ reads out of
bounds). -/
theorem charHeap_get_amended (m : List (List Bool × Nat)) (h : CharHeap)
    (hb : CharHeap.build m = Except.ok h)
    (hnd : (m.map Prod.fst).Nodup) :
    (∀ p s, (p, s) ∈ m → (p.length ≤ 13 → toSigned s ≠ (h.branchChar : Int)) →
      h.getChar p = some s) ∧
    (∀ p q t, (q, t) ∈ m → (∃ r, p ++ r = q) → p ≠ q → pathFind? m p = none →
      h.branchChar < 128 → (p.length ≤ 13 → indexOf p < h.size) →
      h.getChar p = none) := by
  obtain ⟨hins, hsize, _⟩ := build_ok_elim m h hb
  constructor
  · intro p s hmem hne
    by_cases h13 : p.length ≤ 13
    · have hget := insertLoop_get_of_mem h.size m _ _ _ p s hins hmem h13 hnd
        (by rw [List.length_replicate]; exact insertLoop_bound h.size m _ _ _ hins p s hmem h13)
      rw [CharHeap.getChar, if_neg (by omega : ¬ p.length > 13)]
      rw [show ((h.keys, h.overflowMap).1 : List Nat) = h.keys from rfl] at hget
      rw [hget]
      show (if toSigned s = (h.branchChar : Int) then none else some s) = some s
      rw [if_neg (hne h13)]
    · rw [CharHeap.getChar, if_pos (by omega : p.length > 13)]
      exact insertLoop_ovf_of_mem h.size m _ _ _ p s hins hmem (by omega) hnd
  · intro p q t _ _ _ hnone hbc128 hbound
    by_cases h13 : p.length ≤ 13
    · have hlt : indexOf p < h.size := hbound h13
      rw [CharHeap.getChar, if_neg (by omega : ¬ p.length > 13)]
      have huntouched := insertLoop_get_untouched h.size (indexOf p) m _ _ _ hins
        (by
          intro q' t' hq't' _ heq
          have hq'p := indexOf_inj q' p heq
          subst hq'p
          exact pathFind?_eq_none_not_mem m q' hnone t' hq't')
      rw [show ((h.keys, h.overflowMap).1 : List Nat) = h.keys from rfl] at huntouched
      rw [List.getElem?_replicate, if_pos hlt] at huntouched
      rw [huntouched]
      show (if toSigned h.branchChar = (h.branchChar : Int) then none
        else some h.branchChar) = none
      rw [if_pos (by rw [toSigned_of_lt128 h.branchChar hbc128])]
    · rw [CharHeap.getChar, if_pos (by omega : p.length > 13)]
      have huo := insertLoop_ovf_untouched h.size p m _ _ _ hins
        (fun t' ht' => pathFind?_eq_none_not_mem m p hnone t' ht')
      rw [show ((h.keys, h.overflowMap).2 : List (List Bool × Nat)) = h.overflowMap from rfl] at huo
      rw [huo]
      rfl

/-- Witness for the amended C6 theorem on the map {[00]↦97, [01]↦98}:
the inserted pair [0,0]↦97 looks up as 97, and the strict prefix [0]
(not itself inserted) looks up as empty. -/
theorem charHeap_get_amended_witness :
    CharHeap.build [([false, false], 97), ([false, true], 98)] =
      Except.ok ⟨6, [0, 0, 0, 97, 98, 0], 0, []⟩ ∧
    CharHeap.getChar ⟨6, [0, 0, 0, 97, 98, 0], 0, []⟩ [false, false] = some 97 ∧
    CharHeap.getChar ⟨6, [0, 0, 0, 97, 98, 0], 0, []⟩ [false] = none := by
  refine ⟨by decide, ?_, ?_⟩
  · exact (charHeap_get_amended [([false, false], 97), ([false, true], 98)]
      ⟨6, [0, 0, 0, 97, 98, 0], 0, []⟩ (by decide) (by decide)).1 [false, false] 97
      (by decide) (fun _ => by decide)
  · exact (charHeap_get_amended [([false, false], 97), ([false, true], 98)]
      ⟨6, [0, 0, 0, 97, 98, 0], 0, []⟩ (by decide) (by decide)).2 [false] [false, false] 97
      (by decide) ⟨[false], rfl⟩ (by decide) (by decide) (by decide) (fun _ => by decide)

/-- Claim C7 (code bug): the defensive bound check is reachable on the
smallest two-symbol table.  For {[0]↦97, [1]↦98} the depth is 1 and the
dense array has size 2^2 - 2 = 2, but the all-ones path [1] computes index
0*2+2 = 2 = size, so the constructor throws its "index out of range"
integrity error (the revision without the check writes one past the end of
the array) — on the very table the program itself produces for any
two-symbol input. -/
theorem charHeap_build_depth_boundary_throws :
    CharHeap.build [([false], 97), ([true], 98)] = Except.error Err.indexOutOfRange := by
  decide

/-- Claim C8 (code bug): the branch-char scan does not compute the
smallest unused symbol value.  On {[0]↦0, [10]↦2, [110]↦1} it stops at
the first mismatch and returns 1, a value stored in the heap (the smallest
genuinely unused value is 3), contradicting the constructor's own comment
"find the first character that isn't in the map". -/
theorem branchChar_collides_with_stored_symbol :
    (CharHeap.build cmapBad).map CharHeap.branchChar = Except.ok 1 ∧
    pathFind? cmapBad [true, true, false] = some 1 := by
  decide

/-- Claim C9, counterexample: `interpretDict` (the current main's
dictionary decoder) performs no duplicate check: on a stream whose two
entries both carry symbol 97, it silently returns a mapping (the second
entry overwrites the first) instead of failing. -/
theorem interpretDict_duplicate_symbol_succeeds :
    interpretDict [1, 128, 97, 1, 128, 97, 0] = Except.ok ([(97, [])], []) := by
  decide

/-- Claim C9, amended: the duplicate-symbol check lives in `readDict` (the
earlier revision's decoder): for every well-formed entry sequence in which
some symbol repeats, decoding the serialized stream fails with the
DuplicateSymbol error; `interpretDict` keeps the last entry silently. -/
theorem readDict_duplicate_symbol_fails (entries : List (Nat × List Nat)) (rest : List Nat)
    (hwf : ∀ e ∈ entries, 1 ≤ e.2.length ∧ e.2.length ≤ 255)
    (hdup : ¬ (entries.map Prod.fst).Nodup) :
    readDict ((entries.map dictEntryBytes).flatten ++ 0 :: rest) =
      Except.error Err.duplicateSymbol := by
  rw [readDict]
  refine readDictGo_dup entries _ rest [] (fun e he => (hwf e he).1) ?_ (Or.inl hdup)
  have h1 := length_le_flatten_dictEntryBytes entries
  rw [List.length_append, List.length_cons]
  omega

/-- Witness for the amended C9 theorem on a concrete stream with symbol 97
in both entries. -/
theorem readDict_duplicate_symbol_fails_witness :
    readDict ((([(97, [128]), (97, [128])] : List (Nat × List Nat)).map dictEntryBytes).flatten
      ++ 0 :: []) = Except.error Err.duplicateSymbol :=
  readDict_duplicate_symbol_fails [(97, [128]), (97, [128])] [] (by decide) (by decide)

set_option maxRecDepth 40000 in
/-- Claim C10, counterexample: `getChar []` can resolve to a symbol.  On
the 128-entry map `cmap10` (values 0..127 in path order, all paths
non-empty) the branch-char scan ends at 128; slot 0 then holds the byte
128, whose signed char reading (-128) differs from the unsigned sentinel
128, so the comparison `keys[0] == branchChar` is false and `getChar []`
returns the sentinel byte as a symbol instead of empty. -/
theorem getChar_nil_resolves_at_branchChar_128 :
    (CharHeap.build cmap10).map (fun h => (h.branchChar, h.getChar [])) =
      Except.ok (128, some 128) ∧
    (cmap10.all fun e => !e.1.isEmpty) = true := by
  constructor
  · decide
  · decide

/-- Claim C10, amended: for a CharHeap successfully built from a non-empty
map whose paths are all non-empty, and whose branch char is below 128 (so
the signed/unsigned char comparison in `getChar` behaves as intended),
`getChar []` returns empty: slot 0 of the dense array is never written
because every non-empty path's index is at least 1. -/
theorem getChar_nil_empty_of_small_branchChar (m : List (List Bool × Nat)) (h : CharHeap)
    (hb : CharHeap.build m = Except.ok h) (hne : m ≠ [])
    (hpaths : ∀ e ∈ m, e.1 ≠ []) (hbc : h.branchChar < 128) :
    h.getChar [] = none := by
  obtain ⟨hins, hsize, _⟩ := build_ok_elim m h hb
  have hpos : 0 < h.size := by
    obtain ⟨e, es, rfl⟩ := List.exists_cons_of_ne_nil hne
    have h1 : 1 ≤ e.1.length :=
      List.length_pos.mpr (hpaths e (List.mem_cons_self e es))
    have h2 : 1 ≤ maxPathLen (e :: es) :=
      le_trans h1 (le_maxPathLen (e :: es) e.1 e.2 (by simp))
    have h4 : 4 ≤ 2 ^ (min (maxPathLen (e :: es)) 13 + 1) := by
      calc (4 : Nat) = 2 ^ 2 := rfl
      _ ≤ 2 ^ (min (maxPathLen (e :: es)) 13 + 1) := by
          refine Nat.pow_le_pow_right (by norm_num) ?_
          have := le_min h2 (by norm_num : (1 : Nat) ≤ 13)
          omega
    omega
  rw [CharHeap.getChar, if_neg (by simp : ¬ (([] : List Bool).length > 13))]
  have huntouched := insertLoop_get_untouched h.size (indexOf []) m _ _ _ hins
    (by
      intro q t hqt _ heq
      have hq := indexOf_pos q (hpaths (q, t) hqt)
      rw [show indexOf ([] : List Bool) = 0 from rfl] at heq
      omega)
  rw [show ((h.keys, h.overflowMap).1 : List Nat) = h.keys from rfl] at huntouched
  rw [List.getElem?_replicate,
    if_pos (by rw [show indexOf ([] : List Bool) = 0 from rfl]; exact hpos)] at huntouched
  rw [huntouched]
  show (if toSigned h.branchChar = (h.branchChar : Int) then none
    else some h.branchChar) = none
  rw [if_pos (by rw [toSigned_of_lt128 h.branchChar hbc])]

/-- Witness for the amended C10 theorem on the one-entry map {[0]↦97}. -/
theorem getChar_nil_empty_of_small_branchChar_witness :
    CharHeap.build [([false], 97)] = Except.ok ⟨2, [0, 97], 0, []⟩ ∧
    CharHeap.getChar ⟨2, [0, 97], 0, []⟩ [] = none :=
  ⟨by decide, getChar_nil_empty_of_small_branchChar [([false], 97)] ⟨2, [0, 97], 0, []⟩
    (by decide) (by simp) (by decide) (by decide)⟩
